import Mathlib

/- Verification of the svgplot markup-normalization pipeline.
   Strings are modelled as `List Char`; Python `str` operations are
   translated to explicit recursive functions on character lists. -/

/-- Characters of a string literal, used to write identifiers compactly. -/
def str (s : String) : List Char := s.data

/-- Python whitespace test, restricted to the ASCII whitespace characters
(`str.isspace` / regex `\s` agree on these). -/
def isWS (c : Char) : Bool :=
  c = ' ' || c = '\t' || c = '\n' || c = '\r' || c = '\x0b' || c = '\x0c'

/-- Python `s.split(sep)` for a one-character separator: splits at every
occurrence, keeping empty fields (`"".split(" ") = [""]`). -/
def splitOn (sep : Char) : List Char → List (List Char)
  | [] => [[]]
  | a :: rest =>
    match splitOn sep rest with
    | [] => [[]]
    | t :: ts => if a = sep then [] :: t :: ts else (a :: t) :: ts

/-- Python `" ".join`. -/
def joinSp : List (List Char) → List Char
  | [] => []
  | [t] => t
  | t :: ts => t ++ ' ' :: joinSp ts

/-- Remove trailing whitespace. -/
def dropTrail (s : List Char) : List Char :=
  (s.reverse.dropWhile isWS).reverse

/-- Python `str.strip()`: remove leading and trailing whitespace. -/
def strip (s : List Char) : List Char :=
  dropTrail (s.dropWhile isWS)

/-- One step of the regex `\s+(?=\s)`: every whitespace character that is
immediately followed by another whitespace character is removed, so each
whitespace run is reduced to its last character. -/
def collapseWS : List Char → List Char
  | [] => []
  | [c] => [c]
  | a :: b :: rest =>
    if isWS a && isWS b then collapseWS (b :: rest)
    else a :: collapseWS (b :: rest)

/-- The `_slim` lambda of `SVG.slim`:
`re.sub(r"^\s+|\s+$|\s+(?=\s)", "", string)` — drop leading and trailing
whitespace and reduce each interior whitespace run to its last character. -/
def slimValue (s : List Char) : List Char :=
  strip (collapseWS s)

/-- Python `s.rpartition(sep)` for a one-character separator: split at the
last occurrence; when `sep` does not occur, return `("", "", s)`. -/
def rpartition (sep : Char) : List Char → List Char × List Char × List Char
  | [] => ([], [], [])
  | a :: s =>
    match rpartition sep s with
    | (p, m, r) =>
      if m ≠ [] then (a :: p, m, r)
      else if a = sep then ([], [sep], s)
      else ([], [], a :: s)

/-- `string.replace("_", "-")`. -/
def replaceUnderscore (s : List Char) : List Char :=
  s.map fun c => if c = '_' then '-' else c

namespace SVG

/-- The inner `insert` function of `SVG.uid`: replace underscores by
hyphens, split at the last `#`, split the remainder at the last hyphen and
join `prefix ++ sharp ++ before ++ dash ++ ins ++ "-" ++ after` (the
`filter(None, parts)` of the source is a no-op under string join). -/
def insert (s ins : List Char) : List Char :=
  match rpartition '#' (replaceUnderscore s) with
  | (pre, sharp, rest) =>
    match rpartition '-' rest with
    | (before, dash, after) =>
      pre ++ sharp ++ before ++ dash ++ ins ++ '-' :: after

end SVG

/-- Split at the last occurrence of `c`: `some (l, r)` with `s = l ++ c :: r`
and `c ∉ r`, or `none` when `c` does not occur. -/
def splitLast (c : Char) : List Char → Option (List Char × List Char)
  | [] => none
  | a :: s =>
    match splitLast c s with
    | some (l, r) => some (a :: l, r)
    | none => if a = c then some ([], s) else none

/-- Helper of the amended description: insert into the post-`#` remainder
at the last hyphen, always emitting the hyphen after `ins`. -/
def insertAmendedTail (ins r : List Char) : List Char :=
  match splitLast '-' r with
  | some (b, a) => b ++ '-' :: (ins ++ '-' :: a)
  | none => ins ++ '-' :: r

/-- Amended description of the uniquify rewrite: the part up to and
including the last `#` is kept verbatim; the remainder is split at its last
hyphen into `before` and `after`; the result is
`before ++ "-" ++ ins ++ "-" ++ after` when a hyphen was found and
`ins ++ "-" ++ remainder` otherwise — the hyphen directly after `ins` is
always emitted, even when `after` is empty. -/
def insertAmended (s ins : List Char) : List Char :=
  match splitLast '#' (replaceUnderscore s) with
  | some (p, r) => p ++ '#' :: insertAmendedTail ins r
  | none => insertAmendedTail ins (replaceUnderscore s)

/-- The uniquify rewrite as the claim words it: reassemble
`before-ins-after` after the two splits, omitting empty segments together
with their separators (an empty `before` contributes no leading dash, an
empty `after` contributes no trailing dash). -/
def insertClaim (s ins : List Char) : List Char :=
  match rpartition '#' (replaceUnderscore s) with
  | (pre, sharp, rest) =>
    match rpartition '-' rest with
    | (before, _, after) =>
      pre ++ sharp ++
        (if before = [] then [] else before ++ ['-']) ++
        ins ++
        (if after = [] then [] else '-' :: after)

namespace StyleMap

/-- `StyleMap._global` (dict in insertion order). -/
def globalDefaults : List (List Char × List Char) :=
  [(str "stroke-linecap", str "butt"), (str "stroke-linejoin", str "round")]

/-- `StyleMap._text`. -/
def textDefaults : List (List Char × List Char) :=
  [(str "stroke", str "none"), (str "fill", str "#000000")]

def stroke : List (List Char × List Char) :=
  [(str "#ffffff", str "primary"), (str "#000000", str "primary-text"),
   (str "#cccccc", str "secondary"),
   (str "#1f77b4", str "blue"), (str "#ff7f0e", str "orange"),
   (str "#2ca02c", str "green"), (str "#d62728", str "red"),
   (str "#9467bd", str "purple"), (str "#8c564b", str "brown"),
   (str "#e377c2", str "pink"), (str "#7f7f7f", str "grey"),
   (str "#bcbd22", str "olive"), (str "#17becf", str "cyan")]

def fill : List (List Char × List Char) :=
  [(str "none", str "no-fill"), (str "#ffffff", str "bg")]

def stroke_width : List (List Char × List Char) :=
  [(str "0.8", str "thin"), (str "1.5", str "thick")]

def stroke_line_join : List (List Char × List Char) :=
  [(str "round", str "rounded"), (str "miter", str "miter")]

def stroke_line_cap : List (List Char × List Char) :=
  [(str "butt", str "butt"), (str "square", str "square")]

def font : List (List Char × List Char) :=
  [(str "10px 'sans-serif'", str "regular")]

def text_anchor : List (List Char × List Char) :=
  [(str "start", str "left-align"), (str "middle", str "center-align"),
   (str "end", str "right-align")]

/-- `StyleMap.attributes` (dict in insertion order). -/
def attributes : List (List Char × List (List Char × List Char)) :=
  [(str "fill", fill), (str "stroke", stroke),
   (str "stroke-width", stroke_width),
   (str "stroke-linejoin", stroke_line_join),
   (str "stroke-linecap", stroke_line_cap),
   (str "font", font), (str "text-anchor", text_anchor)]

/-- Python dict lookup `d[k]` on an association list: `none` is `KeyError`. -/
def dictGet {α : Type} (d : List (List Char × α)) (k : List Char) : Option α :=
  match d with
  | [] => none
  | (k', v) :: r => if k' = k then some v else dictGet r k

/-- `StyleMap.parse`: an empty string yields no rules, otherwise split at
`";"`, split each rule at `":"` and strip every field. -/
def parse (s : List Char) : List (List (List Char)) :=
  if s = [] then []
  else (splitOn ';' s).map fun rule => (splitOn ':' rule).map strip

/-- One lookup `cls.attributes[attr][value]`. -/
def lookupClass (attr value : List Char) : Option (List Char) :=
  match dictGet attributes attr with
  | none => none
  | some group => dictGet group value

/-- Fold the `(attr, value)` pairs through the vocabulary, failing on the
first `KeyError`. -/
def classesOf : List (List Char × List Char) → Option (List (List Char))
  | [] => some []
  | (attr, value) :: rest =>
    match lookupClass attr value with
    | none => none
    | some c =>
      match classesOf rest with
      | none => none
      | some cs => some (c :: cs)

/-- Convert a parsed rule to an `(attr, value)` pair; a rule that does not
split into exactly two fields is a tuple-unpacking `ValueError`. -/
def rulePairs : List (List (List Char)) → Option (List (List Char × List Char))
  | [] => some []
  | rule :: rest =>
    match rule with
    | [attr, value] =>
      match rulePairs rest with
      | none => none
      | some ps => some ((attr, value) :: ps)
    | _ => none

/-- `StyleMap.classify`: classes of the global defaults followed by classes
of the parsed declarations, space-joined; `none` models the raised
`KeyError`/`ValueError`. -/
def classify (style : List Char) : Option (List Char) :=
  match rulePairs (parse style) with
  | none => none
  | some ps =>
    match classesOf (globalDefaults ++ ps) with
    | none => none
    | some cs => some (joinSp cs)

/-- `StyleMap.tostring`: one `.class { attr: value; }` rule per vocabulary
entry, then the catch-all `.text` rule. -/
def tostring : List Char :=
  let ruleset :=
    (attributes.map fun ag =>
      ag.2.map fun rs =>
        str "." ++ rs.2 ++ str " \x7b " ++ ag.1 ++ str ": " ++ rs.1 ++
          str "; \x7d").flatten
  let textRule :=
    str ".text \x7b " ++
      (match textDefaults.map (fun av => av.1 ++ str ": " ++ av.2) with
       | [] => []
       | t :: ts => t ++ (ts.map (fun u => str "; " ++ u)).flatten) ++
      str "; \x7d"
  (ruleset ++ [textRule]).flatten

end StyleMap

example : SVG.insert (str "hello-world") (str "what1234") =
    str "hello-what1234-world" := by decide
example : SVG.insert (str "#hey") (str "world123x") =
    str "#world123x-hey" := by decide
example : SVG.insert (str "#a-b-c") (str "x0000000") =
    str "#a-b-x0000000-c" := by decide
example : SVG.insert (str "a-") (str "x") = str "a-x-" := by decide
example : insertClaim (str "a-") (str "x") = str "a-x" := by decide
example : insertAmended (str "a-") (str "x") = str "a-x-" := by decide
example : StyleMap.parse [] = [] := by decide
example : StyleMap.classify [] = some (str "butt rounded") := by decide
example : StyleMap.classify (str "stroke:#1f77b4") =
    some (str "butt rounded blue") := by decide
example : slimValue (str " a  b c  ") = str "a b c" := by decide
example : slimValue (str "a \tb") = str "a\tb" := by decide

mutual
/-- Document element: tag, ordered attributes, text, tail, children
(the `xml.etree.ElementTree.Element` fields used by svgplot). -/
inductive Element where
  | mk : List Char → List (List Char × List Char) → Option (List Char) →
      Option (List Char) → ElementList → Element
/-- Children list, as a mutual inductive so that structural recursion and
kernel reduction work. -/
inductive ElementList where
  | nil : ElementList
  | cons : Element → ElementList → ElementList
end

deriving instance DecidableEq for Element, ElementList

/-- Attribute dictionaries are ordered association lists; real
`ElementTree` attribute dicts never hold a key twice. -/
def Attrs : Type := List (List Char × List Char)

def Element.tag : Element → List Char
  | .mk t _ _ _ _ => t

def Element.attrib : Element → Attrs
  | .mk _ a _ _ _ => a

def Element.text : Element → Option (List Char)
  | .mk _ _ tx _ _ => tx

def Element.tail : Element → Option (List Char)
  | .mk _ _ _ tl _ => tl

def Element.children : Element → ElementList
  | .mk _ _ _ _ ch => ch

def Element.withAttrib : Element → Attrs → Element
  | .mk t _ tx tl ch, a => .mk t a tx tl ch

def Element.withText : Element → Option (List Char) → Element
  | .mk t a _ tl ch, tx => .mk t a tx tl ch

def Element.withChildren : Element → ElementList → Element
  | .mk t a tx tl _, ch => .mk t a tx tl ch

def ElementList.toList : ElementList → List Element
  | .nil => []
  | .cons c cs => c :: toList cs

/-- `el.get(key)` on the attribute dict (first — in fact only — entry). -/
def getA (key : List Char) : Attrs → Option (List Char)
  | [] => none
  | (k, v) :: r => if k = key then some v else getA key r

/-- `el.set(key, value)`: update the value in place, or append a new entry. -/
def setA (key value : List Char) : Attrs → Attrs
  | [] => [(key, value)]
  | (k, v) :: r => if k = key then (k, value) :: r else (k, v) :: setA key value r

/-- `el.attrib.pop(key, default)`, the removal part. -/
def popA (key : List Char) : Attrs → Attrs
  | [] => []
  | (k, v) :: r => if k = key then r else (k, v) :: popA key r

def Element.get (e : Element) (key : List Char) : Option (List Char) :=
  getA key e.attrib

def Element.set (e : Element) (key value : List Char) : Element :=
  e.withAttrib (setA key value e.attrib)

mutual
/-- The element itself followed by all elements of its subtree. -/
def allElements : Element → List Element
  | .mk t a tx tl ch => .mk t a tx tl ch :: allElementsL ch
def allElementsL : ElementList → List Element
  | .nil => []
  | .cons c cs => allElements c ++ allElementsL cs
end

/-- The depth-first pre-order list of the strict descendants of an element:
each child followed by its own subtree, in sibling order. -/
def descendants (e : Element) : List Element :=
  allElementsL e.children

/-- The three `ElementPath` patterns svgplot passes to `iterfind`: a plain
tag name, the wildcard `"*"`, and an attribute predicate `"[@attr]"`. -/
inductive Pattern where
  | tag : List Char → Pattern
  | wildcard : Pattern
  | hasAttr : List Char → Pattern

/-- Whether an element matches a pattern. -/
def matchesPat (p : Pattern) (e : Element) : Bool :=
  match p with
  | .tag t => e.tag = t
  | .wildcard => true
  | .hasAttr a => (e.get a).isSome

/-- `el.iterfind(tag)`: a tag name or `"*"` selects the matching direct
children; a leading-predicate path `"[@attr]"` selects the element itself
when it carries the attribute. -/
def iterfind (e : Element) (p : Pattern) : List Element :=
  match p with
  | .tag t => e.children.toList.filter fun c => c.tag = t
  | .wildcard => e.children.toList
  | .hasAttr a => if (e.get a).isSome then [e] else []

mutual
/-- `SVG._iter`: the `iterfind` matches of the element, then recursively
the matches within each child. -/
def SVG._iter : Element → Pattern → List Element
  | .mk t a tx tl ch, p =>
    iterfind (.mk t a tx tl ch) p ++ SVG._iterL ch p
def SVG._iterL : ElementList → Pattern → List Element
  | .nil, _ => []
  | .cons c cs, p => SVG._iter c p ++ SVG._iterL cs p
end

/-- `SVG.iter`. -/
def SVG.iter (e : Element) (p : Pattern) : List Element :=
  SVG._iter e p

mutual
/-- Rewrite the attribute dict of every element of the tree (the root
included) as a function of its tag and attributes; embeds one traversal
loop that only mutates attribute values/presence, which leaves the
traversal itself stable. -/
def mapAttrs (g : List Char → Attrs → Attrs) : Element → Element
  | .mk t a tx tl ch => .mk t (g t a) tx tl (mapAttrsL g ch)
def mapAttrsL (g : List Char → Attrs → Attrs) : ElementList → ElementList
  | .nil => .nil
  | .cons c cs => .cons (mapAttrs g c) (mapAttrsL g cs)
end

mutual
/-- Fallible attribute rewrite over a whole subtree (`none` models an
exception escaping the loop). -/
def mapAttrsO (g : List Char → Attrs → Option Attrs) :
    Element → Option Element
  | .mk t a tx tl ch =>
    match g t a, mapAttrsOL g ch with
    | some a', some ch' => some (.mk t a' tx tl ch')
    | _, _ => none
def mapAttrsOL (g : List Char → Attrs → Option Attrs) :
    ElementList → Option ElementList
  | .nil => some .nil
  | .cons c cs =>
    match mapAttrsO g c, mapAttrsOL g cs with
    | some c', some cs' => some (.cons c' cs')
    | _, _ => none
end

/-- Fallible attribute rewrite over the strict descendants only: a tag
pattern traversal (`self.iter("path")` etc.) never yields the root. -/
def mapDescO (g : List Char → Attrs → Option Attrs) :
    Element → Option Element
  | .mk t a tx tl ch =>
    match mapAttrsOL g ch with
    | some ch' => some (.mk t a tx tl ch')
    | none => none

namespace SVG

/-- Lexicographic comparison of code points: Python string `<=`. -/
def strLe : List Char → List Char → Bool
  | [], _ => true
  | _ :: _, [] => false
  | a :: as, b :: bs => if a = b then strLe as bs else decide (a < b)

/-- Insert into a `strLe`-ascending list. -/
def insortS (x : List Char) : List (List Char) → List (List Char)
  | [] => [x]
  | y :: ys => if strLe x y then x :: y :: ys else y :: insortS x ys

/-- `sorted(...)`: on the distinct strings produced by `set(...)` this is
exactly Python's ascending sort. -/
def sortS : List (List Char) → List (List Char)
  | [] => []
  | x :: xs => insortS x (sortS xs)

/-- `set(...)` on an association-free token list: removes duplicates
(keeping the last copy; the subsequent sort makes the choice irrelevant). -/
def dedupS : List (List Char) → List (List Char)
  | [] => []
  | x :: xs => if x ∈ xs then dedupS xs else x :: dedupS xs

/-- The merged token list of `set_none`:
`chain(el.get(attr, "").split(" "), value.split(" "))`. -/
def mergedToksA (a : Attrs) (attr value : List Char) : List (List Char) :=
  splitOn ' ' ((getA attr a).getD []) ++ splitOn ' ' value

/-- `filter(None, sorted(set(attrs)))` of `set_none`: the deduplicated,
sorted, non-empty tokens. -/
def finalToksA (a : Attrs) (attr value : List Char) : List (List Char) :=
  (sortS (dedupS (mergedToksA a attr value))).filter fun t => !t.isEmpty

/-- `new_value = " ".join(filter(None, attrs))` of `set_none`. -/
def finalValueA (a : Attrs) (attr value : List Char) : List Char :=
  joinSp (finalToksA a attr value)

/-- `SVG.set_none` at the attribute-dict level: merge the space-split old
value with the space-split new tokens, sort the deduplicated tokens, join
the non-empty ones and set the attribute only when the result is
non-empty. -/
def set_noneA (a : Attrs) (attr value : List Char) : Attrs :=
  if (finalValueA a attr value).isEmpty then a
  else setA attr (finalValueA a attr value) a

/-- `SVG.set_none(el, attr, value)`. -/
def set_none (el : Element) (attr value : List Char) : Element :=
  el.withAttrib (set_noneA el.attrib attr value)

end SVG

mutual
/-- `SVG.slim`: strip every element's text (an empty or whitespace-only
text stays present as the empty string), drop every tail, and apply the
whitespace-collapsing `_slim` to every attribute value. -/
def Element.slim : Element → Element
  | .mk t a tx _ ch =>
    .mk t (a.map fun kv => (kv.1, slimValue kv.2)) (tx.map strip) none
      (slimL ch)
def slimL : ElementList → ElementList
  | .nil => .nil
  | .cons c cs => .cons c.slim (slimL cs)
end

namespace SVG

/-- One element's step of a `uid` loop: if the attribute is present,
replace its value by the uniquified value. -/
def uidStepA (key uidv : List Char) (a : Attrs) : Attrs :=
  match getA key a with
  | some v => setA key (insert v uidv) a
  | none => a

/-- `SVG.uid`: three traversals over `iter("[@id]")`, `iter("[@href]")`
and `iter("[@clip-path]")` (which visit every element carrying the
attribute, the root included), each inserting the document id into the
attribute value. -/
def uid (uidv : List Char) (doc : Element) : Element :=
  mapAttrs (fun _ a => uidStepA (str "clip-path") uidv a)
    (mapAttrs (fun _ a => uidStepA (str "href") uidv a)
      (mapAttrs (fun _ a => uidStepA (str "id") uidv a) doc))

/-- One element's step of a classify loop over a tag pattern:
`set_none(el, "class", StyleMap.classify(el.attrib.pop("style", "")))`. -/
def classifyStepA (a : Attrs) : Option Attrs :=
  match StyleMap.classify ((getA (str "style") a).getD []) with
  | none => none
  | some cls => some (set_noneA (popA (str "style") a) (str "class") cls)

/-- The `text` loop additionally appends the literal `text` class. -/
def textStepA (a : Attrs) : Option Attrs :=
  match classifyStepA a with
  | none => none
  | some a' => some (set_noneA a' (str "class") (str "text"))

/-- The embedded-font loop over `iter("[@id]")`: elements whose id starts
with `DejaVuSans` receive the `text` class. -/
def dejaStepA (a : Attrs) : Attrs :=
  match getA (str "id") a with
  | some v =>
    if (str "DejaVuSans").isPrefixOf v then
      set_noneA a (str "class") (str "text")
    else a
  | none => a

/-- Replace the text of the first `style` child in a list, if any. -/
def replaceFirstStyleL (css : List Char) :
    ElementList → Option ElementList
  | .nil => none
  | .cons c cs =>
    if c.tag = str "style" then some (.cons (c.withText (some css)) cs)
    else
      match replaceFirstStyleL css cs with
      | some cs' => some (.cons c cs')
      | none => none

/-- `self.style.text = css` with `self.style = el.find("defs/style")`:
walk the root's children in order; inside each `defs` child take its first
`style` child; replace the text of the first such `style` element overall;
`none` is the `AttributeError` raised when no `defs/style` exists. -/
def replaceDefsStyleL (css : List Char) :
    ElementList → Option ElementList
  | .nil => none
  | .cons c cs =>
    if c.tag = str "defs" then
      match replaceFirstStyleL css c.children with
      | some ch' => some (.cons (c.withChildren ch') cs)
      | none =>
        match replaceDefsStyleL css cs with
        | some cs' => some (.cons c cs')
        | none => none
    else
      match replaceDefsStyleL css cs with
      | some cs' => some (.cons c cs')
      | none => none

/-- Set the stylesheet text of the document. -/
def setStyleText (doc : Element) (css : List Char) : Option Element :=
  match replaceDefsStyleL css doc.children with
  | some ch' => some (doc.withChildren ch')
  | none => none

/-- `SVG.classify`: classify the `path`, `use` and `text` descendants (the
`text` ones also get the `text` class), give the `text` class to every
`DejaVuSans*`-id element, assert that no `style` attribute survives
anywhere, then write the rendered stylesheet into `defs/style`. `none`
models any exception (unknown style value, malformed declaration, failed
assertion, missing `defs/style`). -/
def classify (doc : Element) : Option Element :=
  match mapDescO
      (fun t a => if t = str "path" then classifyStepA a else some a) doc with
  | none => none
  | some d1 =>
  match mapDescO
      (fun t a => if t = str "use" then classifyStepA a else some a) d1 with
  | none => none
  | some d2 =>
  match mapDescO
      (fun t a => if t = str "text" then textStepA a else some a)
      (mapAttrs (fun _ a => dejaStepA a) d2) with
  | none => none
  | some d4 =>
  if (SVG._iter d4 (.hasAttr (str "style"))).length = 0 then
    setStyleText d4 StyleMap.tostring
  else none

end SVG

section ScratchChecks

/-- A small document: svg root with a defs/style and one styled path. -/
def exDoc2 : Element :=
  .mk (str "svg") [(str "width", str "10")] none none
    (.cons (.mk (str "defs") [] none none
        (.cons (.mk (str "style") [] (some []) none .nil) .nil))
      (.cons (.mk (str "path")
          [(str "style", str "stroke:#1f77b4"), (str "id", str "line1")]
          none none .nil)
        .nil))

example : (SVG.classify exDoc2).isSome = true := by decide
example : ((SVG.classify exDoc2).getD exDoc2).get (str "style") = none := by
  decide

/-- Tree whose traversal order separates children-first from pre-order:
root with children a (which has child b) and c. -/
def exDoc8 : Element :=
  .mk (str "svg") [] none none
    (.cons (.mk (str "a") [] none none
        (.cons (.mk (str "b") [] none none .nil) .nil))
      (.cons (.mk (str "c") [] none none .nil) .nil))

example : (SVG.iter exDoc8 .wildcard).map Element.tag =
    [str "a", str "c", str "b"] := by decide
example : (descendants exDoc8).map Element.tag =
    [str "a", str "b", str "c"] := by decide

example : (SVG.uid (str "u1") exDoc2).get (str "id") = none := by decide
example :
    ((allElements (SVG.uid (str "u1") exDoc2)).map fun x =>
      x.get (str "id")) =
    [none, none, none, some (str "u1-line1")] := by decide

def exEl10 : Element := .mk (str "g") [(str "class", [])] none none .nil

example : SVG.set_none exEl10 (str "class") [] = exEl10 := by decide
example : (SVG.set_none exEl10 (str "class") []).get (str "class") =
    some [] := by decide

example : (Element.slim (.mk (str "g") [(str "x", str "a \tb")]
    (some (str "  ")) (some (str " t ")) .nil)) =
    .mk (str "g") [(str "x", str "a\tb")] (some []) none .nil := by decide

end ScratchChecks

section RpartitionLemmas

theorem rpartition_not_mem (sep : Char) :
    ∀ s : List Char, sep ∉ s → rpartition sep s = ([], [], s)
  | [], _ => rfl
  | a :: s, h => by
    have hs : sep ∉ s := fun hm => h (List.mem_cons_of_mem _ hm)
    have ha : a ≠ sep := fun e => h (e ▸ List.mem_cons_self a s)
    simp [rpartition, rpartition_not_mem sep s hs, ha]

theorem rpartition_mem (sep : Char) :
    ∀ s : List Char, sep ∈ s → (rpartition sep s).2.1 = [sep]
  | a :: s, h => by
    by_cases hs : sep ∈ s
    · have ih := rpartition_mem sep s hs
      rcases hx : rpartition sep s with ⟨p, m, r⟩
      rw [hx] at ih
      simp only at ih
      simp [rpartition, hx, ih]
    · have ha : a = sep := by
        rcases List.mem_cons.mp h with h' | h'
        · exact h'.symm
        · exact absurd h' hs
      simp [rpartition, rpartition_not_mem sep s hs, ha]

theorem rpartition_append (sep : Char) :
    ∀ xs ys : List Char, sep ∉ ys →
      rpartition sep (xs ++ ys) =
        if sep ∈ xs then
          ((rpartition sep xs).1, [sep], (rpartition sep xs).2.2 ++ ys)
        else ([], [], xs ++ ys)
  | [], ys, hys => by simp [rpartition_not_mem sep ys hys]
  | x :: xs, ys, hys => by
    have ih := rpartition_append sep xs ys hys
    rcases hx : rpartition sep xs with ⟨p, m, r⟩
    by_cases hmem : sep ∈ xs
    · have hm : m = [sep] := by
        have := rpartition_mem sep xs hmem
        rw [hx] at this; exact this
      rw [if_pos hmem, hx] at ih
      subst hm
      have hmem' : sep ∈ x :: xs := List.mem_cons_of_mem _ hmem
      rw [if_pos hmem']
      show rpartition sep (x :: (xs ++ ys)) = _
      simp [rpartition, ih, hx]
    · rw [if_neg hmem] at ih
      have hm : m = [] := by
        rcases hm' : m with _ | ⟨c, m'⟩
        · rfl
        · exfalso
          rw [rpartition_not_mem sep xs hmem] at hx
          cases hx
          simp at hm'
      subst hm
      by_cases hxsep : x = sep
      · subst hxsep
        have hmem' : x ∈ x :: xs := List.mem_cons_self x xs
        rw [if_pos hmem']
        show rpartition x (x :: (xs ++ ys)) = _
        simp [rpartition, ih, hx]
      · have hmem' : sep ∉ x :: xs := by
          intro hc
          rcases List.mem_cons.mp hc with h' | h'
          · exact hxsep h'.symm
          · exact hmem h'
        rw [if_neg hmem']
        show rpartition sep (x :: (xs ++ ys)) = _
        simp [rpartition, ih, hxsep]

theorem rpartition_eq_splitLast (sep : Char) :
    ∀ s : List Char,
      rpartition sep s =
        match splitLast sep s with
        | some (l, r) => (l, [sep], r)
        | none => ([], [], s)
  | [] => rfl
  | a :: s => by
    have ih := rpartition_eq_splitLast sep s
    cases hsl : splitLast sep s with
    | some lr =>
      rcases lr with ⟨l, r⟩
      rw [hsl] at ih
      simp only at ih
      simp [rpartition, splitLast, ih, hsl]
    | none =>
      rw [hsl] at ih
      simp only at ih
      by_cases ha : a = sep <;>
        simp [rpartition, splitLast, ih, hsl, ha]

theorem not_sharp_replaceUnderscore {s : List Char} (h : '#' ∉ s) :
    '#' ∉ replaceUnderscore s := by
  intro hc
  rcases List.mem_map.mp hc with ⟨c, hcmem, hceq⟩
  by_cases hu : c = '_'
  · simp [hu] at hceq
  · simp [hu] at hceq
    exact h (hceq ▸ hcmem)

end RpartitionLemmas

/-- C1, counterexample: on the identifier `"a-"` (whose `after` segment is
empty) the code emits a trailing hyphen after the unique id, while the
claimed reassembly rule, which omits empty segments together with their
separators, does not. -/
theorem insert_claim_counterexample :
    SVG.insert (str "a-") (str "x") = str "a-x-" ∧
    insertClaim (str "a-") (str "x") = str "a-x" ∧
    SVG.insert (str "a-") (str "x") ≠ insertClaim (str "a-") (str "x") :=
  ⟨by decide, by decide, by decide⟩

/-- C1 (amended): the uniquify rewrite replaces underscores by hyphens,
keeps everything up to and including the last `#` verbatim, splits the
remainder at its last hyphen into `before` and `after`, and reassembles
`before ++ "-" ++ uid ++ "-" ++ after` when the remainder contains a
hyphen and `uid ++ "-" ++ remainder` otherwise; the hyphen directly after
the unique id is always emitted, even when `after` is empty. The three
quoted examples hold as stated. -/
theorem insert_amended_correct :
    (∀ s u : List Char, SVG.insert s u = insertAmended s u) ∧
    SVG.insert (str "hello-world") (str "what1234") =
      str "hello-what1234-world" ∧
    SVG.insert (str "#hey") (str "world123x") = str "#world123x-hey" ∧
    SVG.insert (str "#a-b-c") (str "x0000000") = str "#a-b-x0000000-c" := by
  refine ⟨fun s u => ?_, by decide, by decide, by decide⟩
  unfold SVG.insert insertAmended insertAmendedTail
  rw [rpartition_eq_splitLast '#' (replaceUnderscore s)]
  cases h1 : splitLast '#' (replaceUnderscore s) with
  | some pr =>
    rcases pr with ⟨p, r⟩
    simp only
    rw [rpartition_eq_splitLast '-' r]
    cases h2 : splitLast '-' r with
    | some ba => rcases ba with ⟨b, a⟩; simp
    | none => simp
  | none =>
    simp only
    rw [rpartition_eq_splitLast '-' (replaceUnderscore s)]
    cases h2 : splitLast '-' (replaceUnderscore s) with
    | some ba => rcases ba with ⟨b, a⟩; simp
    | none => simp

/-- C4: the uniquify rewrite is injective in the unique id — for one and
the same identifier the rewrite with two different unique ids gives two
different strings (the hyphen hypothesis of the claim is carried but not
even needed). -/
theorem insert_injective_in_uid (s u1 u2 : List Char)
    (hne : u1 ≠ u2) (_hdash : '-' ∈ s) :
    SVG.insert s u1 ≠ SVG.insert s u2 := by
  unfold SVG.insert
  intro heq
  exact hne (List.append_cancel_left (List.append_cancel_right heq))

/-- C4, witness at a concrete identifier and two concrete unique ids. -/
theorem insert_injective_in_uid_witness :
    SVG.insert (str "a-b") (str "aaaaaaaa") ≠
      SVG.insert (str "a-b") (str "bbbbbbbb") :=
  insert_injective_in_uid _ _ _ (by decide) (by decide)

/-- C6: uniquification preserves reference integrity — for an identifier
without `#`, rewriting the declaration `s`, the fragment reference
`"#" ++ s` and the functional reference `"url(#" ++ s ++ ")"` with the
same unique id gives mutually consistent results. -/
theorem insert_reference_integrity (s u : List Char) (h : '#' ∉ s) :
    SVG.insert ('#' :: s) u = '#' :: SVG.insert s u ∧
    SVG.insert (str "url(#" ++ s ++ str ")") u =
      str "url(#" ++ SVG.insert s u ++ str ")" := by
  have hrs : '#' ∉ replaceUnderscore s := not_sharp_replaceUnderscore h
  have hnr : rpartition '#' (replaceUnderscore s) =
      ([], [], replaceUnderscore s) :=
    rpartition_not_mem '#' _ hrs
  constructor
  · unfold SVG.insert
    have e1 : replaceUnderscore ('#' :: s) = '#' :: replaceUnderscore s := by
      show (if ('#' : Char) = '_' then '-' else '#') :: _ = _
      simp [replaceUnderscore]
    rw [e1]
    have e2 : rpartition '#' ('#' :: replaceUnderscore s) =
        ([], ['#'], replaceUnderscore s) := by
      simp [rpartition, hnr]
    rw [e2, hnr]
    simp
  · unfold SVG.insert
    have m1 : replaceUnderscore (str "url(#") = str "url(#" := by decide
    have m2 : replaceUnderscore (str ")") = str ")" := by decide
    have e1 : replaceUnderscore (str "url(#" ++ s ++ str ")") =
        str "url(#" ++ replaceUnderscore s ++ str ")" := by
      unfold replaceUnderscore at m1 m2 ⊢
      rw [List.map_append, List.map_append, m1, m2]
    rw [e1]
    have hys : '#' ∉ replaceUnderscore s ++ str ")" := by
      intro hc
      rcases List.mem_append.mp hc with h' | h'
      · exact hrs h'
      · simp [str] at h'
    have e2 : rpartition '#' (str "url(#" ++ replaceUnderscore s ++ str ")") =
        (str "url(", ['#'], replaceUnderscore s ++ str ")") := by
      rw [List.append_assoc, rpartition_append '#' (str "url(#") _ hys]
      norm_num [show ('#' : Char) ∈ str "url(#" from by decide,
        show rpartition '#' (str "url(#") = (str "url(", ['#'], []) from by
          decide]
    rw [e2, hnr]
    dsimp only
    have hyd : '-' ∉ str ")" := by decide
    rw [rpartition_append '-' (replaceUnderscore s) _ hyd]
    by_cases hd : '-' ∈ replaceUnderscore s
    · rw [if_pos hd]
      rcases hba : rpartition '-' (replaceUnderscore s) with ⟨b, d, a⟩
      have hm : d = ['-'] := by
        have := rpartition_mem '-' _ hd
        rw [hba] at this; exact this
      subst hm
      dsimp only
      have e3 : str "url(#" = str "url(" ++ ['#'] := by decide
      rw [e3]
      simp [List.append_assoc]
    · rw [if_neg hd]
      rw [rpartition_not_mem '-' _ hd]
      simp only
      have e3 : str "url(#" = str "url(" ++ ['#'] := by decide
      rw [e3]
      simp [List.append_assoc]

/-- C6, witness at a concrete hyphenated identifier and unique id. -/
theorem insert_reference_integrity_witness :
    SVG.insert ('#' :: str "a-b") (str "u1") =
      '#' :: SVG.insert (str "a-b") (str "u1") ∧
    SVG.insert (str "url(#" ++ str "a-b" ++ str ")") (str "u1") =
      str "url(#" ++ SVG.insert (str "a-b") (str "u1") ++ str ")" :=
  insert_reference_integrity (str "a-b") (str "u1") (by decide)

/-- C7, counterexample: classifying the empty style string does not return
an empty class list — the GlobalDefaults classes are always included, so
the result is `"butt rounded"`. -/
theorem classify_empty_counterexample :
    StyleMap.classify [] = some (str "butt rounded") ∧
    StyleMap.classify [] ≠ some [] :=
  ⟨by decide, by decide⟩

/-- C7 (amended): parsing the empty style string produces no
`(property, value)` declarations, and classifying it returns exactly the
classes of the two GlobalDefaults entries, `"butt rounded"` — not an
empty class list. -/
theorem classify_empty_amended :
    StyleMap.parse [] = [] ∧
    StyleMap.classify [] = some (str "butt rounded") :=
  ⟨by decide, by decide⟩

section WhitespaceLemmas

/-- No two adjacent whitespace characters. -/
def noDouble : List Char → Bool
  | [] => true
  | [_] => true
  | a :: b :: r => !(isWS a && isWS b) && noDouble (b :: r)

theorem dropWhile_head_false (p : Char → Bool) :
    ∀ (l : List Char) b t, l.dropWhile p = b :: t → p b = false
  | a :: l', b, t, h => by
    by_cases ha : p a
    · rw [List.dropWhile_cons_of_pos ha] at h
      exact dropWhile_head_false p l' b t h
    · rw [List.dropWhile_cons_of_neg ha] at h
      cases h
      exact Bool.eq_false_iff.mpr ha

theorem dropTrail_eq_rdropWhile (x : List Char) :
    dropTrail x = List.rdropWhile isWS x := rfl

theorem dropTrail_idem (x : List Char) :
    dropTrail (dropTrail x) = dropTrail x := by
  simp [dropTrail_eq_rdropWhile, List.rdropWhile_idempotent]

theorem strip_dropWhile_fix (s : List Char) :
    (strip s).dropWhile isWS = strip s := by
  rw [strip, dropTrail_eq_rdropWhile]
  rcases hp : List.rdropWhile isWS (s.dropWhile isWS) with _ | ⟨b, t⟩
  · rfl
  · obtain ⟨r, hr⟩ := List.rdropWhile_prefix isWS (s.dropWhile isWS)
    rw [hp] at hr
    have hy : (s.dropWhile isWS).dropWhile isWS = s.dropWhile isWS :=
      List.dropWhile_idempotent isWS s
    rw [← hr, List.cons_append] at hy
    have hb : isWS b = false := dropWhile_head_false isWS _ b _ hy
    rw [List.dropWhile_cons_of_neg (by simp [hb])]

theorem strip_dropTrail_fix (s : List Char) :
    dropTrail (strip s) = strip s := by
  rw [strip, dropTrail_idem]

theorem strip_idem (s : List Char) : strip (strip s) = strip s := by
  conv_lhs => rw [strip, strip_dropWhile_fix]
  exact strip_dropTrail_fix s

theorem collapseWS_cons_head {b : Char} (hb : isWS b = false) (r : List Char) :
    ∃ t, collapseWS (b :: r) = b :: t := by
  cases r with
  | nil => exact ⟨[], rfl⟩
  | cons c r' =>
    refine ⟨collapseWS (c :: r'), ?_⟩
    simp [collapseWS, hb]

theorem noDouble_collapseWS : ∀ s, noDouble (collapseWS s) = true
  | [] => rfl
  | [_] => rfl
  | a :: b :: r => by
    by_cases hab : (isWS a && isWS b) = true
    · rw [show collapseWS (a :: b :: r) = collapseWS (b :: r) by
        simp [collapseWS, hab]]
      exact noDouble_collapseWS (b :: r)
    · rw [show collapseWS (a :: b :: r) = a :: collapseWS (b :: r) by
        simp [collapseWS]
        intro h1
        cases hbv : isWS b
        · rfl
        · exact absurd (by simp [h1, hbv]) hab]
      have hrec := noDouble_collapseWS (b :: r)
      by_cases ha : isWS a = true
      · have hb : isWS b = false := by
          cases hbv : isWS b
          · rfl
          · exact absurd (by simp [ha, hbv]) hab
        obtain ⟨t, ht⟩ := collapseWS_cons_head hb r
        rw [ht]
        rw [ht] at hrec
        simp [noDouble, hb, hrec]
      · have ha' : isWS a = false := by simpa using ha
        rcases hz : collapseWS (b :: r) with _ | ⟨z0, zs⟩
        · simp [noDouble]
        · rw [hz] at hrec
          simp [noDouble, ha', hrec]

theorem noDouble_of_cons {a : Char} {l : List Char}
    (h : noDouble (a :: l) = true) : noDouble l = true := by
  cases l with
  | nil => rfl
  | cons b r => simp [noDouble] at h; simp [noDouble, h.2]

theorem collapseWS_of_noDouble : ∀ s, noDouble s = true → collapseWS s = s
  | [], _ => rfl
  | [_], _ => rfl
  | a :: b :: r, h => by
    have h' := h
    simp [noDouble] at h'
    rw [show collapseWS (a :: b :: r) = a :: collapseWS (b :: r) by
      simp [collapseWS]
      intro h1
      rcases h'.1 with h2 | h2
      · exact absurd h1 (by simp [h2])
      · exact h2]
    rw [collapseWS_of_noDouble (b :: r) (noDouble_of_cons h)]

theorem noDouble_dropWhile (p : Char → Bool) :
    ∀ s, noDouble s = true → noDouble (s.dropWhile p) = true
  | [], _ => rfl
  | a :: l, h => by
    by_cases ha : p a
    · rw [List.dropWhile_cons_of_pos ha]
      exact noDouble_dropWhile p l (noDouble_of_cons h)
    · rw [List.dropWhile_cons_of_neg ha]
      exact h

theorem noDouble_append_left :
    ∀ x y : List Char, noDouble (x ++ y) = true → noDouble x = true
  | [], _, _ => rfl
  | [_], _, _ => rfl
  | a :: b :: r, y, h => by
    have h' : noDouble (a :: b :: (r ++ y)) = true := h
    simp [noDouble] at h'
    have hr : noDouble ((b :: r) ++ y) = true := by
      simpa [noDouble] using h'.2
    simp [noDouble, noDouble_append_left (b :: r) y hr]
    exact h'.1

theorem noDouble_dropTrail (s : List Char) (h : noDouble s = true) :
    noDouble (dropTrail s) = true := by
  obtain ⟨r, hr⟩ := List.rdropWhile_prefix isWS s
  rw [← dropTrail_eq_rdropWhile] at hr
  exact noDouble_append_left _ r (by rw [hr]; exact h)

theorem noDouble_strip (s : List Char) (h : noDouble s = true) :
    noDouble (strip s) = true :=
  noDouble_dropTrail _ (noDouble_dropWhile isWS s h)

theorem slimValue_idem (v : List Char) :
    slimValue (slimValue v) = slimValue v := by
  rw [slimValue, slimValue,
    collapseWS_of_noDouble _ (noDouble_strip _ (noDouble_collapseWS v)),
    strip_idem]

theorem noDouble_slimValue (v : List Char) :
    noDouble (slimValue v) = true :=
  noDouble_strip _ (noDouble_collapseWS v)

end WhitespaceLemmas

mutual
theorem slim_slim_aux : ∀ e : Element, e.slim.slim = e.slim
  | .mk t a tx tl ch => by
    simp only [Element.slim]
    congr 1
    · rw [List.map_map]
      apply List.map_congr_left
      intro kv _
      simp [Function.comp, slimValue_idem]
    · cases tx <;> simp [strip_idem]
    · exact slimL_slim_aux ch
theorem slimL_slim_aux : ∀ l : ElementList, slimL (slimL l) = slimL l
  | .nil => rfl
  | .cons c cs => by
    simp only [slimL]
    rw [slim_slim_aux c, slimL_slim_aux cs]
end

/-- C3: the slim pass is idempotent — slimming an already slimmed document
changes nothing (texts, tails, attribute values and structure are all
unchanged by the second pass). -/
theorem slim_idempotent (d : Element) : d.slim.slim = d.slim :=
  slim_slim_aux d

mutual
theorem slim_fields_aux : ∀ e : Element,
    (allElements e.slim).map (fun x => (x.text, x.tail, x.attrib)) =
      (allElements e).map fun x =>
        (x.text.map strip, (none : Option (List Char)),
          x.attrib.map fun kv => (kv.1, slimValue kv.2))
  | .mk t a tx tl ch => by
    simp only [Element.slim, allElements, List.map_cons]
    congr 1
    exact slimL_fields_aux ch
theorem slimL_fields_aux : ∀ l : ElementList,
    (allElementsL (slimL l)).map (fun x => (x.text, x.tail, x.attrib)) =
      (allElementsL l).map fun x =>
        (x.text.map strip, (none : Option (List Char)),
          x.attrib.map fun kv => (kv.1, slimValue kv.2))
  | .nil => rfl
  | .cons c cs => by
    simp only [slimL, allElementsL, List.map_append]
    rw [slim_fields_aux c, slimL_fields_aux cs]
end

/-- C9 (amended): after slim, for every element of the document — the
position-by-position field lists coincide — the text is the
whitespace-trim of the original text (an empty or whitespace-only text
stays present as the empty string rather than becoming absent), the tail
is discarded, and every attribute value is rewritten by `_slim`, which
trims both ends and reduces every whitespace run to a single whitespace
character (the run's last character, not necessarily a space). Trimmed-ness
of `strip` and `_slim` outputs is stated explicitly. -/
theorem slim_effect_amended :
    (∀ e : Element,
      (allElements e.slim).map (fun x => (x.text, x.tail, x.attrib)) =
        (allElements e).map fun x =>
          (x.text.map strip, (none : Option (List Char)),
            x.attrib.map fun kv => (kv.1, slimValue kv.2))) ∧
    (∀ v, (strip v).dropWhile isWS = strip v ∧ dropTrail (strip v) = strip v) ∧
    (∀ v, noDouble (slimValue v) = true ∧
      (slimValue v).dropWhile isWS = slimValue v ∧
      dropTrail (slimValue v) = slimValue v) :=
  ⟨slim_fields_aux,
   fun v => ⟨strip_dropWhile_fix v, strip_dropTrail_fix v⟩,
   fun v => ⟨noDouble_slimValue v,
     by rw [slimValue]; exact strip_dropWhile_fix _,
     by rw [slimValue]; exact strip_dropTrail_fix _⟩⟩

/-- C9, counterexample: slimming an element whose text is whitespace-only
leaves the text present as the empty string instead of turning it into
null/absent, and an attribute whitespace run ` \t` is collapsed to a tab,
not to a single space. -/
theorem slim_claim_counterexample :
    (Element.slim (.mk (str "g") [(str "x", str "a \tb")]
        (some (str "  ")) none .nil)).text = some [] ∧
    (Element.slim (.mk (str "g") [(str "x", str "a \tb")]
        (some (str "  ")) none .nil)).text ≠ none ∧
    (Element.slim (.mk (str "g") [(str "x", str "a \tb")]
        (some (str "  ")) none .nil)).get (str "x") = some (str "a\tb") ∧
    str "a\tb" ≠ str "a b" :=
  ⟨by decide, by decide, by decide, by decide⟩

/-- Patterns `self.iter` is called with that denote tag selections
(`"path"`, `"use"`, `"text"`, `"*"`), as opposed to the self-matching
attribute predicates. -/
def Pattern.isSimple : Pattern → Prop
  | .hasAttr _ => False
  | _ => True

theorem perm_middle_swap {α : Type} (X Y Z : List α) :
    (X ++ (Y ++ Z)).Perm (Y ++ (X ++ Z)) := by
  rw [(List.append_assoc X Y Z).symm, (List.append_assoc Y X Z).symm]
  exact List.Perm.append_right Z List.perm_append_comm

theorem filter_cons_split (F : Element → Bool) (c : Element)
    (L : List Element) :
    (c :: L).filter F = (if F c then [c] else []) ++ L.filter F := by
  by_cases h : F c <;> simp [List.filter_cons, h]

mutual
theorem iter_perm_aux : ∀ (e : Element) (p : Pattern), p.isSimple →
    (SVG._iter e p).Perm ((descendants e).filter (matchesPat p))
  | .mk t a tx tl ch, p, hp => by
    have hif : iterfind (.mk t a tx tl ch) p =
        (ElementList.toList ch).filter (matchesPat p) := by
      cases p with
      | tag tg => rfl
      | wildcard =>
        show ElementList.toList ch = _
        exact (List.filter_true (ElementList.toList ch)).symm
      | hasAttr at_ => exact absurd hp (by simp [Pattern.isSimple])
    show (iterfind (.mk t a tx tl ch) p ++ SVG._iterL ch p).Perm _
    rw [hif]
    exact iterL_perm_aux ch p hp
theorem iterL_perm_aux : ∀ (l : ElementList) (p : Pattern), p.isSimple →
    ((ElementList.toList l).filter (matchesPat p) ++ SVG._iterL l p).Perm
      ((allElementsL l).filter (matchesPat p))
  | .nil, _, _ => by simp [ElementList.toList, SVG._iterL, allElementsL]
  | .cons c cs, p, hp => by
    have ih1 := iter_perm_aux c p hp
    have ih2 := iterL_perm_aux cs p hp
    have hall : allElements c = c :: descendants c := by
      cases c with
      | mk t a tx tl chc => rfl
    have e1 : (ElementList.toList (.cons c cs)).filter (matchesPat p) ++
        SVG._iterL (.cons c cs) p =
        (if matchesPat p c then [c] else []) ++
          ((ElementList.toList cs).filter (matchesPat p) ++
            (SVG._iter c p ++ SVG._iterL cs p)) := by
      rw [show ElementList.toList (.cons c cs) = c :: ElementList.toList cs
        from rfl, filter_cons_split, List.append_assoc]
      rfl
    have e2 : (allElementsL (.cons c cs)).filter (matchesPat p) =
        (if matchesPat p c then [c] else []) ++
          ((descendants c).filter (matchesPat p) ++
            (allElementsL cs).filter (matchesPat p)) := by
      rw [show allElementsL (.cons c cs) =
          allElements c ++ allElementsL cs from rfl,
        List.filter_append, hall, filter_cons_split, List.append_assoc]
    rw [e1, e2]
    refine List.Perm.append_left _ ?_
    exact List.Perm.trans (perm_middle_swap _ _ _)
      (List.Perm.append ih1 ih2)
end

/-- C8 (amended): for every document and every tag-name or wildcard
pattern, `SVG.iter` yields exactly the matching descendants, each exactly
once — the yielded list is a permutation of the pre-order matching
descendants — but the order is not pre-order: a node's matching children
are all yielded before any of their own descendants. -/
theorem iter_matches_each_once (e : Element) (p : Pattern)
    (hp : p.isSimple) :
    (SVG.iter e p).Perm ((descendants e).filter (matchesPat p)) :=
  iter_perm_aux e p hp

/-- C8, witness: the permutation property at a concrete document and the
wildcard pattern. -/
theorem iter_matches_each_once_witness :
    (SVG.iter exDoc8 .wildcard).Perm
      ((descendants exDoc8).filter (matchesPat .wildcard)) :=
  iter_matches_each_once exDoc8 .wildcard trivial

/-- C8, counterexample: on a root with children `a` (which has a child
`b`) and `c`, the wildcard traversal yields tags `a, c, b` while
depth-first pre-order is `a, b, c`, so the traversal is not pre-order. -/
theorem iter_preorder_counterexample :
    SVG.iter exDoc8 .wildcard ≠
      (descendants exDoc8).filter (matchesPat .wildcard) := by
  intro h
  have htags := congrArg (List.map Element.tag) h
  revert htags
  decide

section AttrLemmas

theorem getA_setA_same (key v : List Char) :
    ∀ a : Attrs, getA key (setA key v a) = some v
  | [] => by simp [setA, getA]
  | (k, w) :: r => by
    by_cases hk : k = key
    · simp [setA, getA, hk]
    · simp [setA, getA, hk, getA_setA_same key v r]

theorem getA_setA_ne (key k' v : List Char) (h : k' ≠ key) :
    ∀ a : Attrs, getA k' (setA key v a) = getA k' a
  | [] => by
    simp [setA, getA]
    intro he
    exact absurd he.symm h
  | (k, w) :: r => by
    by_cases hk : k = key
    · subst hk
      have hkk : k ≠ k' := fun e => h (e.symm)
      simp [setA, getA, hkk]
    · simp [setA, getA, hk, getA_setA_ne key k' v h r]

theorem getA_uidStepA_same (key u : List Char) (a : Attrs) :
    getA key (SVG.uidStepA key u a) =
      (getA key a).map fun v => SVG.insert v u := by
  unfold SVG.uidStepA
  cases h : getA key a with
  | none => simp [h]
  | some v => simp [getA_setA_same]

theorem getA_uidStepA_ne (key k' u : List Char) (h : k' ≠ key) (a : Attrs) :
    getA k' (SVG.uidStepA key u a) = getA k' a := by
  unfold SVG.uidStepA
  cases hx : getA key a with
  | none => rfl
  | some v => simp [getA_setA_ne key k' _ h]

end AttrLemmas

mutual
theorem mapAttrs_comp (g1 g2 : List Char → Attrs → Attrs) :
    ∀ e : Element,
      mapAttrs g2 (mapAttrs g1 e) = mapAttrs (fun t a => g2 t (g1 t a)) e
  | .mk t a tx tl ch => by
    simp only [mapAttrs]
    rw [mapAttrsL_comp g1 g2 ch]
theorem mapAttrsL_comp (g1 g2 : List Char → Attrs → Attrs) :
    ∀ l : ElementList,
      mapAttrsL g2 (mapAttrsL g1 l) = mapAttrsL (fun t a => g2 t (g1 t a)) l
  | .nil => rfl
  | .cons c cs => by
    simp only [mapAttrsL]
    rw [mapAttrs_comp g1 g2 c, mapAttrsL_comp g1 g2 cs]
end

mutual
theorem allElements_mapAttrs (g : List Char → Attrs → Attrs) :
    ∀ e : Element,
      (allElements (mapAttrs g e)).map Element.attrib =
        (allElements e).map fun x => g x.tag x.attrib
  | .mk t a tx tl ch => by
    simp only [mapAttrs, allElements, List.map_cons]
    congr 1
    exact allElementsL_mapAttrs g ch
theorem allElementsL_mapAttrs (g : List Char → Attrs → Attrs) :
    ∀ l : ElementList,
      (allElementsL (mapAttrsL g l)).map Element.attrib =
        (allElementsL l).map fun x => g x.tag x.attrib
  | .nil => rfl
  | .cons c cs => by
    simp only [mapAttrsL, allElementsL, List.map_append]
    rw [allElements_mapAttrs g c, allElementsL_mapAttrs g cs]
end

/-- The composite per-element rewrite the three `uid` loops perform on an
attribute dict. -/
def SVG.uidAllSteps (u : List Char) (a : Attrs) : Attrs :=
  SVG.uidStepA (str "clip-path") u
    (SVG.uidStepA (str "href") u (SVG.uidStepA (str "id") u a))

/-- C5: the uniquify pass rewrites, on every element of the document (the
root included, since the `[@id]`-style traversals match the element
itself), the value of each of the attributes `id`, `href` and `clip-path`
by the `insert` rewrite — attribute dicts after `uid` are exactly the
original dicts passed through the per-element rewrite, and that rewrite
maps each of the three attribute values through `insert` (absent
attributes stay absent), so no element retains an unrewritten value. -/
theorem uid_rewrites_all (u : List Char) (e : Element) :
    (allElements (SVG.uid u e)).map Element.attrib =
      (allElements e).map (fun x => SVG.uidAllSteps u x.attrib) ∧
    ∀ a : Attrs,
      getA (str "id") (SVG.uidAllSteps u a) =
        (getA (str "id") a).map (fun v => SVG.insert v u) ∧
      getA (str "href") (SVG.uidAllSteps u a) =
        (getA (str "href") a).map (fun v => SVG.insert v u) ∧
      getA (str "clip-path") (SVG.uidAllSteps u a) =
        (getA (str "clip-path") a).map (fun v => SVG.insert v u) := by
  constructor
  · rw [SVG.uid, mapAttrs_comp, mapAttrs_comp, allElements_mapAttrs]
    rfl
  · intro a
    refine ⟨?_, ?_, ?_⟩
    · rw [SVG.uidAllSteps,
        getA_uidStepA_ne _ _ _ (by decide),
        getA_uidStepA_ne _ _ _ (by decide),
        getA_uidStepA_same]
    · rw [SVG.uidAllSteps,
        getA_uidStepA_ne _ _ _ (by decide),
        getA_uidStepA_same,
        getA_uidStepA_ne _ _ _ (by decide)]
    · rw [SVG.uidAllSteps,
        getA_uidStepA_same,
        getA_uidStepA_ne _ _ _ (by decide),
        getA_uidStepA_ne _ _ _ (by decide)]

mutual
theorem iter_hasAttr : ∀ (e : Element) (key : List Char),
    SVG._iter e (.hasAttr key) =
      (allElements e).filter fun x => (x.get key).isSome
  | .mk t a tx tl ch, key => by
    show iterfind (.mk t a tx tl ch) (.hasAttr key) ++
        SVG._iterL ch (.hasAttr key) = _
    rw [show allElements (.mk t a tx tl ch) =
        (.mk t a tx tl ch) :: allElementsL ch from rfl,
      filter_cons_split, iterL_hasAttr ch key]
    rfl
theorem iterL_hasAttr : ∀ (l : ElementList) (key : List Char),
    SVG._iterL l (.hasAttr key) =
      (allElementsL l).filter fun x => (x.get key).isSome
  | .nil, _ => rfl
  | .cons c cs, key => by
    simp only [SVG._iterL, allElementsL, List.filter_append]
    rw [iter_hasAttr c key, iterL_hasAttr cs key]
end

theorem no_style_of_count_zero (d : Element) (key : List Char)
    (h : (SVG._iter d (.hasAttr key)).length = 0) :
    ∀ x ∈ allElements d, x.get key = none := by
  rw [iter_hasAttr] at h
  have hnil := List.length_eq_zero.mp h
  intro x hx
  have hni := List.filter_eq_nil_iff.mp hnil x hx
  cases hg : x.get key with
  | none => rfl
  | some v => rw [hg] at hni; simp at hni

theorem replaceFirstStyle_attribs (css : List Char) :
    ∀ (l l' : ElementList), SVG.replaceFirstStyleL css l = some l' →
      (allElementsL l').map Element.attrib =
        (allElementsL l).map Element.attrib
  | .nil, l', h => by simp [SVG.replaceFirstStyleL] at h
  | .cons c cs, l', h => by
    by_cases hc : c.tag = str "style"
    · rw [SVG.replaceFirstStyleL, if_pos hc] at h
      cases h
      cases c with
      | mk t a tx tl ch =>
        simp [allElementsL, allElements, Element.withText, List.map_append,
          Element.attrib]
    · rw [SVG.replaceFirstStyleL, if_neg hc] at h
      cases hr : SVG.replaceFirstStyleL css cs with
      | none => rw [hr] at h; cases h
      | some cs' =>
        rw [hr] at h
        cases h
        simp only [allElementsL, List.map_append]
        rw [replaceFirstStyle_attribs css cs cs' hr]

theorem replaceDefsStyle_attribs (css : List Char) :
    ∀ (l l' : ElementList), SVG.replaceDefsStyleL css l = some l' →
      (allElementsL l').map Element.attrib =
        (allElementsL l).map Element.attrib
  | .nil, l', h => by simp [SVG.replaceDefsStyleL] at h
  | .cons c cs, l', h => by
    by_cases hc : c.tag = str "defs"
    · rw [SVG.replaceDefsStyleL, if_pos hc] at h
      cases hf : SVG.replaceFirstStyleL css c.children with
      | some ch' =>
        rw [hf] at h
        cases h
        cases c with
        | mk t a tx tl ch =>
          simp only [allElementsL, allElements, Element.withChildren,
            List.map_append, List.map_cons, Element.attrib]
          rw [replaceFirstStyle_attribs css ch ch' hf]
      | none =>
        rw [hf] at h
        cases hr : SVG.replaceDefsStyleL css cs with
        | none => rw [hr] at h; cases h
        | some cs' =>
          rw [hr] at h
          cases h
          simp only [allElementsL, List.map_append]
          rw [replaceDefsStyle_attribs css cs cs' hr]
    · rw [SVG.replaceDefsStyleL, if_neg hc] at h
      cases hr : SVG.replaceDefsStyleL css cs with
      | none => rw [hr] at h; cases h
      | some cs' =>
        rw [hr] at h
        cases h
        simp only [allElementsL, List.map_append]
        rw [replaceDefsStyle_attribs css cs cs' hr]

theorem setStyleText_attribs (d d' : Element) (css : List Char)
    (h : SVG.setStyleText d css = some d') :
    (allElements d').map Element.attrib =
      (allElements d).map Element.attrib := by
  unfold SVG.setStyleText at h
  cases hr : SVG.replaceDefsStyleL css d.children with
  | none => rw [hr] at h; cases h
  | some ch' =>
    rw [hr] at h
    cases h
    cases d with
    | mk t a tx tl ch =>
      simp only [allElements, Element.withChildren, List.map_cons,
        Element.attrib]
      rw [replaceDefsStyle_attribs css ch ch' hr]

/-- C2: whenever the classify pass returns normally, no element anywhere
in the resulting tree carries a `style` attribute — the internal assertion
counts the style-bearing elements over the whole tree (root included) and
the only mutation after it, replacing the stylesheet text, touches no
attribute dict. -/
theorem classify_no_residual_styles (d d' : Element)
    (h : SVG.classify d = some d') :
    ∀ x ∈ allElements d', x.get (str "style") = none := by
  unfold SVG.classify at h
  split at h
  · exact absurd h (by simp)
  · split at h
    · exact absurd h (by simp)
    · split at h
      · exact absurd h (by simp)
      · split at h
        · rename_i d4 hcnt
          have hstyle := no_style_of_count_zero _ (str "style") hcnt
          have hmap := setStyleText_attribs _ _ _ h
          intro x hx
          have hxm : x.attrib ∈
              (allElements _).map Element.attrib := List.mem_map_of_mem _ hx
          rw [hmap] at hxm
          rcases List.mem_map.mp hxm with ⟨y, hy, hyx⟩
          have hyn := hstyle y hy
          show getA (str "style") x.attrib = none
          rw [← hyx]
          exact hyn
        · exact absurd h (by simp)

set_option maxRecDepth 4000 in
/-- C2, witness: a document with a `defs/style` and one styled path is
classified successfully, and the root of the result carries no `style`
attribute. -/
theorem classify_no_residual_styles_witness :
    ((SVG.classify exDoc2).getD exDoc2).get (str "style") = none :=
  classify_no_residual_styles exDoc2 ((SVG.classify exDoc2).getD exDoc2)
    (by decide) ((SVG.classify exDoc2).getD exDoc2) (by decide)

section SortLemmas

theorem strLe_total : ∀ a b : List Char,
    SVG.strLe a b = true ∨ SVG.strLe b a = true
  | [], _ => Or.inl rfl
  | _ :: _, [] => Or.inr rfl
  | x :: xs, y :: ys => by
    by_cases hxy : x = y
    · subst hxy
      simpa [SVG.strLe] using strLe_total xs ys
    · rcases lt_or_gt_of_ne hxy with h | h
      · exact Or.inl (by simp [SVG.strLe, hxy, h])
      · exact Or.inr (by simp [SVG.strLe, Ne.symm hxy, h])

theorem strLe_trans : ∀ a b c : List Char, SVG.strLe a b = true →
    SVG.strLe b c = true → SVG.strLe a c = true
  | [], _, _, _, _ => rfl
  | _ :: _, [], _, h, _ => by simp [SVG.strLe] at h
  | _ :: _, _ :: _, [], _, h => by simp [SVG.strLe] at h
  | x :: xs, y :: ys, z :: zs, h1, h2 => by
    by_cases hxy : x = y <;> by_cases hyz : y = z
    · subst hxy; subst hyz
      simp only [SVG.strLe, if_pos rfl] at *
      exact strLe_trans xs ys zs h1 h2
    · subst hxy
      simp [SVG.strLe, hyz] at *
      exact h2
    · subst hyz
      simp [SVG.strLe, hxy] at *
      exact h1
    · simp [SVG.strLe, hxy] at h1
      simp [SVG.strLe, hyz] at h2
      have hxz : x < z := lt_trans h1 h2
      simp [SVG.strLe, ne_of_lt hxz, hxz]

theorem insortS_perm (x : List Char) :
    ∀ l, (SVG.insortS x l).Perm (x :: l)
  | [] => List.Perm.refl _
  | y :: ys => by
    by_cases h : SVG.strLe x y = true
    · simp [SVG.insortS, h]
    · rw [SVG.insortS, if_neg h]
      exact ((insortS_perm x ys).cons y).trans (List.Perm.swap x y ys)

theorem sortS_perm : ∀ l, (SVG.sortS l).Perm l
  | [] => List.Perm.refl _
  | x :: xs => (insortS_perm x (SVG.sortS xs)).trans
      ((sortS_perm xs).cons x)

theorem pairwise_insortS (x : List Char) :
    ∀ l, l.Pairwise (fun a b => SVG.strLe a b = true) →
      (SVG.insortS x l).Pairwise (fun a b => SVG.strLe a b = true)
  | [], _ => by simp [SVG.insortS]
  | y :: ys, h => by
    by_cases hxy : SVG.strLe x y = true
    · rw [SVG.insortS, if_pos hxy]
      refine List.Pairwise.cons ?_ h
      intro z hz
      rcases List.mem_cons.mp hz with rfl | hz'
      · exact hxy
      · exact strLe_trans x y z hxy (List.rel_of_pairwise_cons h hz')
    · rw [SVG.insortS, if_neg hxy]
      have hyx : SVG.strLe y x = true := (strLe_total x y).resolve_left hxy
      refine List.Pairwise.cons ?_ (pairwise_insortS x ys (List.Pairwise.of_cons h))
      intro z hz
      rcases List.mem_cons.mp ((insortS_perm x ys).mem_iff.mp hz) with rfl | hz'
      · exact hyx
      · exact List.rel_of_pairwise_cons h hz'

theorem pairwise_sortS :
    ∀ l, (SVG.sortS l).Pairwise fun a b => SVG.strLe a b = true
  | [] => List.Pairwise.nil
  | x :: xs => pairwise_insortS x (SVG.sortS xs) (pairwise_sortS xs)

theorem mem_dedupS : ∀ (l : List (List Char)) (x : List Char),
    x ∈ SVG.dedupS l ↔ x ∈ l
  | [], x => by simp [SVG.dedupS]
  | y :: ys, x => by
    by_cases h : y ∈ ys
    · rw [SVG.dedupS, if_pos h, mem_dedupS ys x]
      constructor
      · exact fun hx => List.mem_cons_of_mem _ hx
      · intro hx
        rcases List.mem_cons.mp hx with rfl | hx'
        · exact h
        · exact hx'
    · rw [SVG.dedupS, if_neg h]
      simp [mem_dedupS ys x]

theorem nodup_dedupS : ∀ l : List (List Char), (SVG.dedupS l).Nodup
  | [] => List.nodup_nil
  | y :: ys => by
    by_cases h : y ∈ ys
    · rw [SVG.dedupS, if_pos h]
      exact nodup_dedupS ys
    · rw [SVG.dedupS, if_neg h]
      exact List.nodup_cons.mpr
        ⟨fun hy => h ((mem_dedupS ys y).mp hy), nodup_dedupS ys⟩

end SortLemmas

theorem joinSp_ne_nil_of_toks :
    ∀ L : List (List Char), L ≠ [] → (∀ t ∈ L, t ≠ []) → joinSp L ≠ []
  | [], hn, _ => absurd rfl hn
  | [t], _, h1 => by simpa [joinSp] using h1 t (by simp)
  | t :: t2 :: ts, _, _ => by cases t <;> simp [joinSp]

theorem withAttrib_self : ∀ el : Element, el.withAttrib el.attrib = el
  | .mk _ _ _ _ _ => rfl

theorem attrib_withAttrib : ∀ (el : Element) (x : Attrs),
    (el.withAttrib x).attrib = x
  | .mk _ _ _ _ _, _ => rfl

/-- C10 (amended): `set_none` merges the space-separated old attribute
value with the new tokens; the resulting token list is deduplicated,
sorted, and consists exactly of the non-empty merged tokens; when it is
non-empty the attribute is set to the space-join of those tokens (other
attributes unchanged), and when it is empty the element is left entirely
unchanged — in particular an element with no `class` attribute gains none,
but a pre-existing empty-valued attribute is not removed. -/
theorem set_none_amended (el : Element) (attr value : List Char) :
    (SVG.finalToksA el.attrib attr value).Nodup ∧
    (SVG.finalToksA el.attrib attr value).Pairwise
      (fun a b => SVG.strLe a b = true) ∧
    (∀ t, t ∈ SVG.finalToksA el.attrib attr value ↔
      t ∈ SVG.mergedToksA el.attrib attr value ∧ t ≠ []) ∧
    (SVG.finalToksA el.attrib attr value = [] →
      SVG.set_none el attr value = el) ∧
    (SVG.finalToksA el.attrib attr value ≠ [] →
      (SVG.set_none el attr value).get attr =
        some (joinSp (SVG.finalToksA el.attrib attr value)) ∧
      ∀ k, k ≠ attr → (SVG.set_none el attr value).get k = el.get k) := by
  have hmem : ∀ t, t ∈ SVG.finalToksA el.attrib attr value ↔
      t ∈ SVG.mergedToksA el.attrib attr value ∧ t ≠ [] := by
    intro t
    rw [SVG.finalToksA, List.mem_filter,
      (sortS_perm (SVG.dedupS (SVG.mergedToksA el.attrib attr value))).mem_iff,
      mem_dedupS]
    simp
  refine ⟨?_, ?_, hmem, ?_, ?_⟩
  · exact List.Nodup.filter _
      ((sortS_perm _).symm.nodup (nodup_dedupS _))
  · exact List.Pairwise.sublist (List.filter_sublist _) (pairwise_sortS _)
  · intro hnil
    have hval : SVG.finalValueA el.attrib attr value = [] := by
      rw [SVG.finalValueA, hnil]; rfl
    rw [SVG.set_none, SVG.set_noneA, if_pos (by rw [hval]; rfl)]
    exact withAttrib_self el
  · intro hne
    have hfv : SVG.finalValueA el.attrib attr value ≠ [] :=
      joinSp_ne_nil_of_toks _ hne fun t ht => ((hmem t).mp ht).2
    have hcond : ¬((SVG.finalValueA el.attrib attr value).isEmpty = true) := by
      cases hv : SVG.finalValueA el.attrib attr value with
      | nil => exact absurd hv hfv
      | cons c cs => simp
    constructor
    · rw [SVG.set_none, Element.get, attrib_withAttrib, SVG.set_noneA,
        if_neg hcond, getA_setA_same]
      rfl
    · intro k hk
      rw [SVG.set_none, Element.get, attrib_withAttrib, SVG.set_noneA,
        if_neg hcond, getA_setA_ne _ _ _ hk]
      rfl

/-- C10, witness: merging `"a"` into an element whose class list is `"b"`
sets `class` to the sorted merge `"a b"`. -/
theorem set_none_amended_witness :
    (SVG.set_none (.mk (str "g") [(str "class", str "b")] none none .nil)
      (str "class") (str "a")).get (str "class") = some (str "a b") := by
  have h := set_none_amended
    (.mk (str "g") [(str "class", str "b")] none none .nil)
    (str "class") (str "a")
  exact (h.2.2.2.2 (by decide)).1

/-- C10, counterexample: on an element carrying an empty `class` attribute
and an empty new-token string the merged result is empty, and `set_none`
leaves the element unchanged — so the element still carries its (empty)
`class` attribute, contrary to the claim that such an element carries no
`class` attribute at all afterwards. -/
theorem set_none_claim_counterexample :
    SVG.set_none exEl10 (str "class") [] = exEl10 ∧
    (SVG.set_none exEl10 (str "class") []).get (str "class") = some [] ∧
    (SVG.set_none exEl10 (str "class") []).get (str "class") ≠ none :=
  ⟨by decide, by decide, by decide⟩
